import Mathlib

/-!
Shallow embedding of `backend/hardware_manager.py` (class `HardwareManager`):
motor speed clamping, the motion ledger, return-to-start collection and
replay, odometry reset, the path ring buffer, heading wrap, and battery
voltage decoding.  Python floats are modelled as rationals (`ℚ`) except for
the heading wrap, where the mathematical reals are needed for `π`.
-/

/-- Command source: Python passes the strings "manual" and "auto". -/
inductive Source where
  | manual
  | auto
deriving DecidableEq, Repr

/-- One entry of `self.motion_log`.  In Python an entry is a dict with keys
`left`, `right`, `duration`, `source`, and (for manual entries) `consumed`;
`entry.get ("consumed")` yields a falsy `None` when the key is absent, so a
`consumed := false` field is a faithful model for auto entries too. -/
structure MotionEntry where
  left : ℤ
  right : ℤ
  duration : ℚ
  source : Source
  consumed : Bool
deriving DecidableEq, Repr

/-- The ledger-related state: `self.motion_log` and `self._last_command_time`. -/
structure LedgerState where
  motion_log : List MotionEntry
  last_command_time : Option ℚ
deriving DecidableEq, Repr

/-- Apply `f` to the last element of a list (Python `self.motion_log[-1]`). -/
def modifyLastEntry (f : MotionEntry → MotionEntry) : List MotionEntry → List MotionEntry
  | [] => []
  | [e] => [f e]
  | e :: e2 :: rest => e :: modifyLastEntry f (e2 :: rest)

/-- `HardwareManager._record_motion_command(left_speed, right_speed, source)`
called at wall-clock time `now` (Python `time.monotonic()`).  First the last
entry's duration is extended by the elapsed time, then either the matching
last entry is merged (timestamp update only) or a fresh zero-duration entry
is appended. -/
def record_motion_command (st : LedgerState) (left_speed right_speed : ℤ)
    (source : Source) (now : ℚ) : LedgerState :=
  let log :=
    match st.last_command_time with
    | some t =>
        if st.motion_log.isEmpty then st.motion_log
        else modifyLastEntry (fun e => { e with duration := e.duration + max 0 (now - t) }) st.motion_log
    | none => st.motion_log
  match log.getLast? with
  | some last =>
      if last.left = left_speed ∧ last.right = right_speed ∧ last.source = source then
        { motion_log := log, last_command_time := some now }
      else
        { motion_log := log ++ [{ left := left_speed, right := right_speed, duration := 0,
                                  source := source, consumed := false }],
          last_command_time := some now }
  | none =>
      { motion_log := log ++ [{ left := left_speed, right := right_speed, duration := 0,
                                source := source, consumed := false }],
        last_command_time := some now }

/-- The finalization step at the top of `_collect_return_segments`: extend the
last entry's duration against `now` and move the timestamp forward. -/
def finalize_motion_log (st : LedgerState) (now : ℚ) : LedgerState :=
  match st.last_command_time with
  | some t =>
      if st.motion_log.isEmpty then st
      else
        { motion_log := modifyLastEntry (fun e => { e with duration := e.duration + max 0 (now - t) }) st.motion_log,
          last_command_time := some now }
  | none => st

/-- A collected return segment.  The Python dict holds a reference to the
ledger entry itself; the embedding keeps the entry's index in the log. -/
structure ReturnSegment where
  entry_idx : ℕ
  left : ℤ
  right : ℤ
  duration : ℚ
deriving DecidableEq, Repr

/-- The selection loop of `_collect_return_segments`: keep unconsumed manual
entries with positive duration, in chronological order. -/
def collect_from_log (log : List MotionEntry) : List ReturnSegment :=
  log.enum.filterMap (fun p =>
    if p.2.source = Source.manual ∧ p.2.consumed = false ∧ 0 < p.2.duration then
      some { entry_idx := p.1, left := p.2.left, right := p.2.right, duration := p.2.duration }
    else none)

/-- `HardwareManager._collect_return_segments()` at wall-clock time `now`. -/
def collect_return_segments (st : LedgerState) (now : ℚ) :
    List ReturnSegment × LedgerState :=
  let st2 := finalize_motion_log st now
  (collect_from_log st2.motion_log, st2)

/-- The mutable fields of `HardwareManager` touched by the embedded methods.
`return_abort` models `self._return_abort`: `none` when the threading event is
absent, `some b` when it exists with flag value `b` (`set()` makes it true).
The heading and pose are rationals here; only the heading wrap (below, on `ℝ`)
needs transcendental arithmetic and it is modelled separately. -/
structure HWState where
  max_speed : ℤ
  left_speed : ℤ
  right_speed : ℤ
  ledger : LedgerState
  returning_to_start : Bool
  return_abort : Option Bool
  last_encoder_counts : Option (ℤ × ℤ)
  pose_x : ℚ
  pose_y : ℚ
  heading : ℚ
  total_distance_ft : ℚ
  odometry_sequence : ℕ
  path_points : List (ℚ × ℚ)
  path_capacity : ℕ
deriving DecidableEq, Repr

/-- Fresh state as built by `HardwareManager.__init__` (bus effects aside). -/
def initialHWState (max_speed : ℤ) (path_capacity : ℕ) : HWState :=
  { max_speed := max_speed, left_speed := 0, right_speed := 0,
    ledger := ⟨[], none⟩, returning_to_start := false, return_abort := none,
    last_encoder_counts := none, pose_x := 0, pose_y := 0, heading := 0,
    total_distance_ft := 0, odometry_sequence := 0,
    path_points := [(0, 0)], path_capacity := path_capacity }

/-- `HardwareManager._clamp(value, lo, hi) = max(lo, min(hi, value))`. -/
def clampValue (value lo hi : ℤ) : ℤ :=
  max lo (min hi value)

/-- `HardwareManager._abort_return_to_start()`: set the abort event if any. -/
def abort_return_to_start (st : HWState) : HWState :=
  { st with return_abort := st.return_abort.map (fun _ => true) }

/-- `HardwareManager.set_motor_speed(left_speed, right_speed, source=source)`
at wall-clock time `now`; the I2C write has no effect on the embedded state. -/
def set_motor_speed (st : HWState) (left_speed right_speed : ℤ)
    (source : Source) (now : ℚ) : HWState :=
  let l := clampValue left_speed (-st.max_speed) st.max_speed
  let r := clampValue right_speed (-st.max_speed) st.max_speed
  let st1 := { st with left_speed := l, right_speed := r }
  let st2 := if source ≠ Source.auto then abort_return_to_start st1 else st1
  { st2 with ledger := record_motion_command st2.ledger l r source now }

/-- `HardwareManager.reset_motion_log()`. -/
def reset_motion_log (st : HWState) : HWState :=
  { st with ledger := ⟨[], none⟩ }

/-- `HardwareManager.reset_odometry()`; the optional hardware encoder-reset
write at the end has no effect on the embedded state. -/
def reset_odometry (st : HWState) : HWState :=
  let st1 := abort_return_to_start st
  let st2 := { st1 with
    last_encoder_counts := none,
    pose_x := 0, pose_y := 0, heading := 0,
    total_distance_ft := 0,
    odometry_sequence := st1.odometry_sequence + 1,
    path_points := [(0, 0)] }
  reset_motion_log st2

/-- The synchronous part of `HardwareManager.begin_return_to_start()` at time
`now`: the result pair `(accepted, message)`, the segment list captured for the
background worker, and the state after the call returns. -/
def begin_return_to_start (st : HWState) (now : ℚ) :
    (Bool × String) × List ReturnSegment × HWState :=
  if st.returning_to_start then
    ((false, "Return-to-start already in progress."), [], st)
  else
    let p := collect_return_segments st.ledger now
    if p.1.isEmpty then
      ((false, "No recorded motion available to retrace."), [],
        { st with ledger := p.2 })
    else
      ((true, "Returning to start"), p.1,
        { st with ledger := p.2, returning_to_start := true,
                  return_abort := some false })

/-- A `set_motor_speed` call issued by the replay worker. -/
structure IssuedCommand where
  left : ℤ
  right : ℤ
  duration : ℚ
  source : Source
deriving DecidableEq, Repr

/-- The drive command the worker issues for one segment: inverted sign,
source auto, held for the segment's duration. -/
def invertSegment (s : ReturnSegment) : IssuedCommand :=
  { left := -s.left, right := -s.right, duration := s.duration,
    source := Source.auto }

/-- The final `set_motor_speed(0, 0, source="auto")` in the worker's
`finally` block; it is not held for any duration. -/
def stopCommand : IssuedCommand :=
  { left := 0, right := 0, duration := 0, source := Source.auto }

/-- The loop body of the replay worker in `begin_return_to_start`, run on the
already reversed segment list.  `abortBudget = some k` models an abort event
raised after `k` drive commands have been issued (the flag is polled at the
top of each iteration and every 50 ms during the hold); `none` models a run
where the flag is never raised.  Returns the issued drive commands and the
`result["success"]` flag. -/
def workerLoop : Option ℕ → List ReturnSegment → List IssuedCommand × Bool
  | some 0, _ :: _ => ([], false)
  | _, [] => ([], true)
  | abortBudget, seg :: rest =>
      if seg.duration ≤ 0 then workerLoop abortBudget rest
      else if seg.left = 0 ∧ seg.right = 0 then workerLoop abortBudget rest
      else
        let tail := workerLoop (abortBudget.map (fun n => n - 1)) rest
        (invertSegment seg :: tail.1, tail.2)

/-- The whole replay worker: reverse the collected segments, run the loop,
and always issue the stop command afterwards (`finally` block). -/
def runReplay (segments : List ReturnSegment) (abortBudget : Option ℕ) :
    List IssuedCommand × Bool :=
  let r := workerLoop abortBudget segments.reverse
  (r.1 ++ [stopCommand], r.2)

/-- One pass of the consumption loop body in the worker's `finally` block:
mark the entry at index `i` consumed if it is a manual entry. -/
def markEntryConsumed : List MotionEntry → ℕ → List MotionEntry
  | [], _ => []
  | e :: rest, 0 =>
      (if e.source = Source.manual then { e with consumed := true } else e) :: rest
  | e :: rest, n + 1 => e :: markEntryConsumed rest n

/-- The ledger mutation in the worker's `finally` block: when
`result["success"]` is true, every collected segment's entry is marked
consumed (manual entries only); otherwise the log is untouched. -/
def finishReplayLog (log : List MotionEntry) (segments : List ReturnSegment)
    (success : Bool) : List MotionEntry :=
  if success then
    segments.foldl (fun acc s => markEntryConsumed acc s.entry_idx) log
  else log

/-- The path ring buffer capacity computed in `__init__`:
`deque(maxlen=max(2, int(encoders.max_path_points or 600)))`, where a missing
or falsy configured value falls back to 600. -/
def effective_path_capacity (configured : Option ℤ) : ℕ :=
  let raw : ℤ :=
    match configured with
    | none => 600
    | some v => if v = 0 then 600 else v
  (max 2 raw).toNat

/-- Appending to a `deque` with `maxlen = capacity`: the oldest points are
evicted from the front once the buffer is full. -/
def ringAppend (capacity : ℕ) (buf : List (ℚ × ℚ)) (p : ℚ × ℚ) : List (ℚ × ℚ) :=
  let b := buf ++ [p]
  if capacity < b.length then b.drop (b.length - capacity) else b

/-- The path append in `update_odometry`. -/
def appendPathPoint (st : HWState) (p : ℚ × ℚ) : HWState :=
  { st with path_points := ringAppend st.path_capacity st.path_points p }

/-- Battery-related configuration fields read in `__init__`. -/
structure BatteryConfig where
  voltage_scale : ℚ
  divider_ratio : ℚ
  ema_alpha : ℚ
deriving DecidableEq, Repr

/-- The raw word assembled in `read_battery_voltage`:
`raw = data[0] | (data[1] << 8)`. -/
def batteryRawWord (d0 d1 : ℕ) : ℕ :=
  d0 ||| (d1 <<< 8)

/-- The voltage computed from one 2-byte bus read in `read_battery_voltage`
before smoothing: `voltage = raw * voltage_scale`, multiplied by
`divider_ratio` when that is positive. -/
def batteryDecodeWord (cfg : BatteryConfig) (d0 d1 : ℕ) : ℚ :=
  let voltage := (batteryRawWord d0 d1 : ℚ) * cfg.voltage_scale
  if 0 < cfg.divider_ratio then voltage * cfg.divider_ratio else voltage

/-- The smoothing step in `read_battery_voltage`: bypass the EMA when there
is no prior sample or `ema_alpha <= 0`, otherwise blend with the clamped
alpha. -/
def batterySmoothStep (alpha : ℚ) (prev : Option ℚ) (voltage : ℚ) : ℚ :=
  match prev with
  | none => voltage
  | some pv =>
      if alpha ≤ 0 then voltage
      else
        let a := max 0 (min 1 alpha)
        a * voltage + (1 - a) * pv

/-- `HardwareManager.read_battery_voltage()`.  `bus_available` is
`self.bus is not None`; `voltage_register` is `self.battery_register`;
`prev` is the stored `self._battery_voltage`; `bus_data = none` models the
2-byte block read raising an exception (caught: the method returns `None`).
The result is the returned value and the new `self._battery_voltage`. -/
def read_battery_voltage (cfg : BatteryConfig) (bus_available : Bool)
    (voltage_register : Option ℕ) (prev : Option ℚ)
    (bus_data : Option (ℕ × ℕ)) : Option ℚ × Option ℚ :=
  if bus_available = false ∨ voltage_register = none then (none, prev)
  else
    match bus_data with
    | none => (none, prev)
    | some (d0, d1) =>
        let v := batterySmoothStep cfg.ema_alpha prev (batteryDecodeWord cfg d0 d1)
        (some v, some v)

/-- Modelled from the spec: the battery configuration fields the spec's
decode algorithm refers to (bit width, signed bit-shift, signedness, offset,
voltage window bounds, optional fixed word order); none of these exist in
`read_battery_voltage` in the source. -/
structure SpecBatteryConfig where
  bit_width : ℕ
  bit_shift : ℤ
  is_signed : Bool
  scale : ℚ
  offset : ℚ
  empty_voltage : ℚ
  full_voltage : ℚ
  swap_words : Option Bool
deriving DecidableEq, Repr

/-- Modelled from the spec: one raw interpretation, masked to the configured
bit width, shifted by the configured signed bit-shift (positive = right,
negative = left), reinterpreted as signed if configured, then scaled with an
offset. -/
def specCandidateVoltage (cfg : SpecBatteryConfig) (raw : ℕ) : ℚ :=
  let masked := raw % 2 ^ cfg.bit_width
  let shifted : ℕ :=
    if 0 ≤ cfg.bit_shift then masked >>> cfg.bit_shift.toNat
    else masked <<< cfg.bit_shift.natAbs
  let value : ℤ :=
    if cfg.is_signed = true ∧ 2 ^ (cfg.bit_width - 1) ≤ shifted then
      (shifted : ℤ) - 2 ^ cfg.bit_width
    else (shifted : ℤ)
  (value : ℚ) * cfg.scale + cfg.offset

/-- Modelled from the spec: decode a 2-byte word by forming the native and
byte-swapped interpretations; with a fixed word order pick that candidate,
otherwise score both against the window
`[empty_voltage - 2, full_voltage + 5]` and pick the one closest to the
window midpoint, so a value is always returned. -/
def specDecodeWord (cfg : SpecBatteryConfig) (d0 d1 : ℕ) : ℚ :=
  let native := specCandidateVoltage cfg (d0 ||| (d1 <<< 8))
  let swapped := specCandidateVoltage cfg (d1 ||| (d0 <<< 8))
  match cfg.swap_words with
  | some false => native
  | some true => swapped
  | none =>
      let lo := cfg.empty_voltage - 2
      let hi := cfg.full_voltage + 5
      let mid := (lo + hi) / 2
      if |native - mid| ≤ |swapped - mid| then native else swapped

/-- Python float modulo with a positive divisor, `a % b = a - b * (a / b).floor()`
(the result carries the sign of the divisor). -/
noncomputable def pyMod (a b : ℝ) : ℝ :=
  a - b * ⌊a / b⌋

/-- The heading wrap in `update_odometry`:
`((theta + delta_theta + math.pi) % (2 * math.pi)) - math.pi`. -/
noncomputable def wrapHeading (angle : ℝ) : ℝ :=
  pyMod (angle + Real.pi) (2 * Real.pi) - Real.pi

/-- The heading update of one `update_odometry` integration step. -/
noncomputable def integrateHeading (theta delta_theta : ℝ) : ℝ :=
  wrapHeading (theta + delta_theta)

lemma clampValue_mem (v lo hi : ℤ) (h : lo ≤ hi) :
    lo ≤ clampValue v lo hi ∧ clampValue v lo hi ≤ hi :=
  ⟨le_max_left lo (min hi v), max_le h (min_le_left hi v)⟩

lemma set_motor_speed_speed_fields (st : HWState) (l r : ℤ) (src : Source) (now : ℚ) :
    (set_motor_speed st l r src now).left_speed = clampValue l (-st.max_speed) st.max_speed
    ∧ (set_motor_speed st l r src now).right_speed = clampValue r (-st.max_speed) st.max_speed
    ∧ (set_motor_speed st l r src now).max_speed = st.max_speed := by
  simp only [set_motor_speed, abort_return_to_start]
  split <;> simp

/-- Claim C5: for all integer inputs, `set_motor_speed` stores the clamped
values as the current speed state, never the raw inputs, so (for a
nonnegative configured `max_speed`) the stored motor speeds are within
`±max_speed` after every call. -/
theorem set_motor_speed_stores_clamped (st : HWState) (l r : ℤ) (src : Source)
    (now : ℚ) (hmax : 0 ≤ st.max_speed) :
    (set_motor_speed st l r src now).left_speed = clampValue l (-st.max_speed) st.max_speed
    ∧ (set_motor_speed st l r src now).right_speed = clampValue r (-st.max_speed) st.max_speed
    ∧ -st.max_speed ≤ (set_motor_speed st l r src now).left_speed
    ∧ (set_motor_speed st l r src now).left_speed ≤ st.max_speed
    ∧ -st.max_speed ≤ (set_motor_speed st l r src now).right_speed
    ∧ (set_motor_speed st l r src now).right_speed ≤ st.max_speed := by
  obtain ⟨hl, hr, -⟩ := set_motor_speed_speed_fields st l r src now
  have hlohi : -st.max_speed ≤ st.max_speed := by linarith
  obtain ⟨hl1, hl2⟩ := clampValue_mem l (-st.max_speed) st.max_speed hlohi
  obtain ⟨hr1, hr2⟩ := clampValue_mem r (-st.max_speed) st.max_speed hlohi
  refine ⟨hl, hr, ?_, ?_, ?_, ?_⟩ <;> first
    | exact hl ▸ hl1 | exact hl ▸ hl2 | exact hr ▸ hr1 | exact hr ▸ hr2

/-- Witness for C5 at a concrete out-of-range input: with `max_speed = 100`,
requesting `(250, -300)` stores `(100, -100)`. -/
theorem set_motor_speed_stores_clamped_witness :
    0 ≤ (initialHWState 100 600).max_speed
    ∧ (set_motor_speed (initialHWState 100 600) 250 (-300) Source.manual 0).left_speed
        = clampValue 250 (-(initialHWState 100 600).max_speed) (initialHWState 100 600).max_speed :=
  ⟨by decide,
    (set_motor_speed_stores_clamped (initialHWState 100 600) 250 (-300)
      Source.manual 0 (by decide)).1⟩

/-- Claim C8: after `reset_odometry()` the pose is the origin with heading 0,
the path contains exactly one point (the origin), the total distance is 0,
the odometry sequence increased by exactly 1, the encoder baseline is
cleared, the motion ledger is empty, and any in-progress return is aborted
first (an existing abort event is set). -/
theorem reset_odometry_resets_state (st : HWState) :
    (reset_odometry st).pose_x = 0
    ∧ (reset_odometry st).pose_y = 0
    ∧ (reset_odometry st).heading = 0
    ∧ (reset_odometry st).path_points = [(0, 0)]
    ∧ (reset_odometry st).total_distance_ft = 0
    ∧ (reset_odometry st).odometry_sequence = st.odometry_sequence + 1
    ∧ (reset_odometry st).last_encoder_counts = none
    ∧ (reset_odometry st).ledger = ⟨[], none⟩
    ∧ (reset_odometry st).return_abort = st.return_abort.map (fun _ => true) := by
  simp [reset_odometry, reset_motion_log, abort_return_to_start]

/-- Claim C10: when `read_battery_voltage` returns `None` (bus unavailable,
no voltage register, or a bus exception) the stored smoothed-voltage state is
left unchanged, and the EMA is bypassed (the raw decoded value is stored
directly) whenever `ema_alpha <= 0`, even when a prior sample exists. -/
theorem read_battery_voltage_failure_and_alpha (cfg : BatteryConfig)
    (bus_available : Bool) (voltage_register : Option ℕ) (prev : Option ℚ)
    (bus_data : Option (ℕ × ℕ)) (vr : ℕ) (pv : ℚ) (d0 d1 : ℕ) :
    ((read_battery_voltage cfg bus_available voltage_register prev bus_data).1 = none →
      (read_battery_voltage cfg bus_available voltage_register prev bus_data).2 = prev)
    ∧ (cfg.ema_alpha ≤ 0 →
      (read_battery_voltage cfg true (some vr) (some pv) (some (d0, d1))).2
        = some (batteryDecodeWord cfg d0 d1)) := by
  constructor
  · intro h
    by_cases hc : bus_available = false ∨ voltage_register = none
    · simp [read_battery_voltage, hc]
    · cases bus_data with
      | none => simp [read_battery_voltage, hc]
      | some d => simp [read_battery_voltage, hc] at h
  · intro halpha
    simp [read_battery_voltage, batterySmoothStep, if_pos halpha]

/-- Witness for C10: an exception-path read leaves a stored 12.1 V in place,
and with `ema_alpha = 0` a later read stores the raw decode unaveraged. -/
theorem read_battery_voltage_failure_and_alpha_witness :
    (read_battery_voltage ⟨1/100, 1, 0⟩ true (some 42) (some (121/10)) none).1 = none
    ∧ (read_battery_voltage ⟨1/100, 1, 0⟩ true (some 42) (some (121/10)) none).2 = some (121/10)
    ∧ (read_battery_voltage ⟨1/100, 1, 0⟩ true (some 42) (some (121/10)) (some (189, 4))).2
        = some (batteryDecodeWord ⟨1/100, 1, 0⟩ 189 4) := by
  refine ⟨by simp [read_battery_voltage], ?_, ?_⟩
  · exact (read_battery_voltage_failure_and_alpha ⟨1/100, 1, 0⟩ true (some 42)
      (some (121/10)) none 42 (121/10) 189 4).1 (by simp [read_battery_voltage])
  · exact (read_battery_voltage_failure_and_alpha ⟨1/100, 1, 0⟩ true (some 42)
      (some (121/10)) none 42 (121/10) 189 4).2 (le_refl 0)

/-- The spec's battery decode parameters instantiated neutrally (16-bit
word, no shift, unsigned, no offset) with the configured window
`full_voltage = 12.6`, `empty_voltage = 9.0`, and no fixed word order. -/
def specBatteryCfgEx : SpecBatteryConfig :=
  ⟨16, 0, false, 1/100, 0, 9, 63/5, none⟩

/-- Counterexample to claim C1: on the 2-byte read `(1, 192)` the spec's
candidate-scoring decode selects the byte-swapped value 4.48 V (closest to
the window midpoint 12.3 V), but `read_battery_voltage` in the source has no
candidate scoring at all and returns the fixed little-endian decode
491.53 V. -/
theorem battery_decode_counterexample :
    specDecodeWord specBatteryCfgEx 1 192 = 112/25
    ∧ (read_battery_voltage ⟨1/100, 1, 3/10⟩ true (some 42) none (some (1, 192))).1
        = some (49153/100)
    ∧ (49153 : ℚ)/100 ≠ 112/25 := by
  have hword : (1 : ℕ) ||| (192 <<< 8) = 49153 := by decide
  have hswap : (192 : ℕ) ||| (1 <<< 8) = 448 := by decide
  have hnative : specCandidateVoltage ⟨16, 0, false, 1/100, 0, 9, 63/5, none⟩ 49153
      = 49153/100 := by
    norm_num [specCandidateVoltage]
  have hswapped : specCandidateVoltage ⟨16, 0, false, 1/100, 0, 9, 63/5, none⟩ 448
      = 112/25 := by
    norm_num [specCandidateVoltage]
  refine ⟨?_, ?_, by norm_num⟩
  · have habs : ¬(|(49153:ℚ)/100 - (9 - 2 + (63/5 + 5)) / 2| ≤
        |(112:ℚ)/25 - (9 - 2 + (63/5 + 5)) / 2|) := by
      rw [abs_of_pos (by norm_num), abs_of_neg (by norm_num)]
      norm_num
    simp only [specDecodeWord, specBatteryCfgEx, hword, hswap, hnative, hswapped]
    rw [if_neg habs]
  · simp only [read_battery_voltage, batterySmoothStep, batteryDecodeWord,
      batteryRawWord, hword]
    norm_num
    rw [if_neg (by simp)]

/-- Claim C1 (amended): `read_battery_voltage` decodes the 2-byte register
word with a single fixed little-endian interpretation
`data[0] | (data[1] << 8) = d0 + 256*d1`, multiplies by `voltage_scale` and
by `divider_ratio` when that is positive, smooths, and always returns a value
on a successful read; there is no masking, bit-shift, sign reinterpretation,
offset, or byte-order candidate selection. -/
theorem read_battery_voltage_little_endian (cfg : BatteryConfig) (vr : ℕ)
    (prev : Option ℚ) (d0 d1 : ℕ) (h : d0 < 256) :
    (read_battery_voltage cfg true (some vr) prev (some (d0, d1))).1
      = some (batterySmoothStep cfg.ema_alpha prev (batteryDecodeWord cfg d0 d1))
    ∧ batteryRawWord d0 d1 = d0 + 256 * d1 := by
  constructor
  · simp [read_battery_voltage]
  · have h1 : d1 <<< 8 = 2 ^ 8 * d1 := by rw [Nat.shiftLeft_eq]; ring
    have h2 := Nat.mul_add_lt_is_or (b := d0) (i := 8) (by simpa using h) d1
    rw [batteryRawWord, h1, Nat.lor_comm, ← h2]
    ring

/-- Witness for C1 (amended) at the concrete read `(1, 192)`. -/
theorem read_battery_voltage_little_endian_witness :
    (1 : ℕ) < 256
    ∧ (read_battery_voltage ⟨1/100, 1, 3/10⟩ true (some 42) none (some (1, 192))).1
      = some (batterySmoothStep (3/10) none (batteryDecodeWord ⟨1/100, 1, 3/10⟩ 1 192))
    ∧ batteryRawWord 1 192 = 1 + 256 * 192 :=
  ⟨by decide,
   (read_battery_voltage_little_endian ⟨1/100, 1, 3/10⟩ 42 none 1 192 (by decide)).1,
   (read_battery_voltage_little_endian ⟨1/100, 1, 3/10⟩ 42 none 1 192 (by decide)).2⟩

/-- Counterexample to claim C9: with configured capacity 1, the deque is
created with `maxlen = max(2, 1) = 2`, so after one append to the seeded
buffer the path holds 2 points, exceeding the configured value 1. -/
theorem path_ring_capacity_counterexample :
    effective_path_capacity (some 1) = 2
    ∧ ringAppend (effective_path_capacity (some 1)) [((0:ℚ), (0:ℚ))] (1, 0)
        = [(0, 0), (1, 0)]
    ∧ ¬((ringAppend (effective_path_capacity (some 1)) [((0:ℚ), (0:ℚ))] (1, 0)).length
          ≤ 1) := by
  have hcap : effective_path_capacity (some 1) = 2 := by decide
  refine ⟨hcap, ?_, ?_⟩ <;> simp [hcap, ringAppend]

/-- Claim C9 (amended): the path ring buffer's effective capacity is
`max(2, configured)` (600 when the configured value is missing or falsy); for
every configured capacity of at least 2 — the default is 600 — appends keep
the buffer at or below that capacity, each append adds exactly one point, and
an append at capacity evicts the oldest point. -/
theorem path_ring_capacity_bound (configured : ℤ) (buf : List (ℚ × ℚ)) (p : ℚ × ℚ)
    (hconf : 2 ≤ configured)
    (hlen : buf.length ≤ effective_path_capacity (some configured)) :
    effective_path_capacity (some configured) = configured.toNat
    ∧ (ringAppend (effective_path_capacity (some configured)) buf p).length
        ≤ effective_path_capacity (some configured)
    ∧ (buf.length < effective_path_capacity (some configured) →
        ringAppend (effective_path_capacity (some configured)) buf p = buf ++ [p])
    ∧ (buf.length = effective_path_capacity (some configured) →
        ringAppend (effective_path_capacity (some configured)) buf p
          = buf.tail ++ [p]) := by
  have hne : configured ≠ 0 := by omega
  have hcap : effective_path_capacity (some configured) = configured.toNat := by
    simp only [effective_path_capacity, if_neg hne]
    rw [max_eq_right hconf]
  have hcap2 : 2 ≤ effective_path_capacity (some configured) := by
    rw [hcap]; omega
  refine ⟨hcap, ?_, ?_, ?_⟩
  · rw [ringAppend]
    split
    · simp only [List.length_drop]
      omega
    · simp only [List.length_append, List.length_singleton] at *
      omega
  · intro hlt
    rw [ringAppend]
    rw [if_neg (by simp only [List.length_append, List.length_singleton]; omega)]
  · intro heq
    obtain ⟨a, rest, rfl⟩ := List.exists_cons_of_ne_nil
      (l := buf) (by intro hnil; rw [hnil] at heq; simp at heq; omega)
    rw [ringAppend]
    have hc : effective_path_capacity (some configured) < ((a :: rest) ++ [p]).length := by
      simp only [List.length_append, List.length_cons, List.length_nil] at *
      omega
    rw [if_pos hc]
    have hdrop : ((a :: rest) ++ [p]).length - effective_path_capacity (some configured)
        = 1 := by
      simp only [List.length_append, List.length_cons, List.length_nil] at *
      omega
    rw [hdrop]
    simp

/-- Witness for C9 at the default capacity 600 with a one-point buffer. -/
theorem path_ring_capacity_bound_witness :
    (2 ≤ (600:ℤ))
    ∧ ([((0:ℚ), (0:ℚ))].length ≤ effective_path_capacity (some 600))
    ∧ (ringAppend (effective_path_capacity (some 600)) [((0:ℚ), (0:ℚ))] (1, 0)).length
        ≤ effective_path_capacity (some 600) :=
  ⟨by decide, by norm_num [effective_path_capacity],
   (path_ring_capacity_bound 600 [((0:ℚ), (0:ℚ))] (1, 0) (by decide)
      (by norm_num [effective_path_capacity])).2.1⟩

lemma pyMod_nonneg_lt (a b : ℝ) (hb : 0 < b) : 0 ≤ pyMod a b ∧ pyMod a b < b := by
  unfold pyMod
  have hfl : (⌊a / b⌋ : ℝ) ≤ a / b := Int.floor_le _
  have hfu : a / b < ⌊a / b⌋ + 1 := Int.lt_floor_add_one _
  have hba : b * (a / b) = a := by field_simp
  constructor
  · have h2 : b * (⌊a / b⌋ : ℝ) ≤ b * (a / b) := mul_le_mul_of_nonneg_left hfl hb.le
    linarith
  · have h2 : b * (a / b) < b * ((⌊a / b⌋ : ℝ) + 1) := (mul_lt_mul_left hb).mpr hfu
    have h3 : b * ((⌊a / b⌋ : ℝ) + 1) = b * (⌊a / b⌋ : ℝ) + b := by ring
    linarith

/-- Counterexample to claim C4: the integration step at heading 0 with
`delta_theta = π` stores heading `-π`, which is outside the claimed interval
`(-π, π]`. -/
theorem integrate_heading_counterexample :
    integrateHeading 0 Real.pi = -Real.pi
    ∧ ¬(-Real.pi < integrateHeading 0 Real.pi) := by
  have hne : (2:ℝ) * Real.pi ≠ 0 := by positivity
  have hmod : pyMod (0 + Real.pi + Real.pi) (2 * Real.pi) = 0 := by
    unfold pyMod
    rw [show (0:ℝ) + Real.pi + Real.pi = 2 * Real.pi by ring, div_self hne]
    simp
  have hval : integrateHeading 0 Real.pi = -Real.pi := by
    unfold integrateHeading wrapHeading
    rw [hmod]
    ring
  exact ⟨hval, by rw [hval]; exact lt_irrefl _⟩

/-- Claim C7: `begin_return_to_start` reports failures as structured results,
never exceptions: while a return is running it fails with the
already-in-progress result and changes nothing; with an empty collected
segment list (no unconsumed manual entry of positive duration) it fails with
the no-motion-recorded result; otherwise it transitions to running and
returns success immediately, handing the collected segments to the worker. -/
theorem begin_return_to_start_structured (st : HWState) (now : ℚ) :
    (st.returning_to_start = true →
      begin_return_to_start st now
        = ((false, "Return-to-start already in progress."), [], st))
    ∧ (st.returning_to_start = false →
        (collect_return_segments st.ledger now).1 = [] →
        (begin_return_to_start st now).1 = (false, "No recorded motion available to retrace.")
        ∧ (begin_return_to_start st now).2.2.returning_to_start = false)
    ∧ (st.returning_to_start = false →
        (collect_return_segments st.ledger now).1 ≠ [] →
        (begin_return_to_start st now).1 = (true, "Returning to start")
        ∧ (begin_return_to_start st now).2.1 = (collect_return_segments st.ledger now).1
        ∧ (begin_return_to_start st now).2.2.returning_to_start = true
        ∧ (begin_return_to_start st now).2.2.return_abort = some false) := by
  refine ⟨fun hrun => ?_, fun hidle hemp => ?_, fun hidle hne => ?_⟩
  · simp [begin_return_to_start, hrun]
  · simp [begin_return_to_start, hidle, List.isEmpty_iff, hemp]
  · simp [begin_return_to_start, hidle, List.isEmpty_iff, hne]

/-- Witness for C7: from an idle state with one unconsumed 2-second manual
entry, `begin_return_to_start` accepts and transitions to running. -/
theorem begin_return_to_start_structured_witness :
    ({ initialHWState 100 600 with
        ledger := ⟨[⟨50, 50, 2, Source.manual, false⟩], none⟩ } : HWState).returning_to_start
        = false
    ∧ (collect_return_segments (⟨[⟨50, 50, 2, Source.manual, false⟩], none⟩ : LedgerState) 3).1
        ≠ []
    ∧ (begin_return_to_start
        { initialHWState 100 600 with
          ledger := ⟨[⟨50, 50, 2, Source.manual, false⟩], none⟩ } 3).1
        = (true, "Returning to start") := by
  have hidle : ({ initialHWState 100 600 with
      ledger := ⟨[⟨50, 50, 2, Source.manual, false⟩], none⟩ } : HWState).returning_to_start
      = false := by
    simp [initialHWState]
  have hne : (collect_return_segments
      (⟨[⟨50, 50, 2, Source.manual, false⟩], none⟩ : LedgerState) 3).1 ≠ [] := by
    norm_num [collect_return_segments, finalize_motion_log, collect_from_log,
      List.enum, List.enumFrom]
    simp
  exact ⟨hidle, hne,
    ((begin_return_to_start_structured
        { initialHWState 100 600 with
          ledger := ⟨[⟨50, 50, 2, Source.manual, false⟩], none⟩ } 3).2.2 hidle hne).1⟩

/-- The two skip guards of the replay loop as one test: a segment is driven
iff its duration is positive and its velocity pair is not `(0, 0)`. -/
def shouldDrive (s : ReturnSegment) : Bool :=
  !(decide (s.duration ≤ 0)) && !(decide (s.left = 0 ∧ s.right = 0))

lemma workerLoop_none_cons (seg : ReturnSegment) (rest : List ReturnSegment) :
    workerLoop none (seg :: rest)
      = if seg.duration ≤ 0 then workerLoop none rest
        else if seg.left = 0 ∧ seg.right = 0 then workerLoop none rest
        else (invertSegment seg :: (workerLoop none rest).1, (workerLoop none rest).2) :=
  rfl

lemma workerLoop_none_eq_filter (l : List ReturnSegment) :
    workerLoop none l = ((l.filter shouldDrive).map invertSegment, true) := by
  induction l with
  | nil => rfl
  | cons seg rest ih =>
      rw [workerLoop_none_cons, ih]
      by_cases h1 : seg.duration ≤ 0
      · have hd : shouldDrive seg = false := by simp [shouldDrive, h1]
        simp [h1, List.filter_cons, hd, ih]
      · by_cases h2 : seg.left = 0 ∧ seg.right = 0
        · have hd : shouldDrive seg = false := by simp [shouldDrive, h2]
          simp [h1, h2, List.filter_cons, hd, ih]
        · have hd : shouldDrive seg = true := by simp [shouldDrive, h1, h2]
          simp [h1, h2, List.filter_cons, hd, ih]

lemma markEntryConsumed_get_self (log : List MotionEntry) (j : ℕ) :
    (markEntryConsumed log j).get? j
      = (log.get? j).map
          (fun e => if e.source = Source.manual then { e with consumed := true } else e) := by
  induction log generalizing j with
  | nil => rfl
  | cons e rest ih =>
      cases j with
      | zero => rfl
      | succ n => simpa [markEntryConsumed] using ih n

lemma markEntryConsumed_get_other (log : List MotionEntry) (i j : ℕ) (h : i ≠ j) :
    (markEntryConsumed log j).get? i = log.get? i := by
  induction log generalizing i j with
  | nil => rfl
  | cons e rest ih =>
      cases j with
      | zero =>
          cases i with
          | zero => exact absurd rfl h
          | succ m => rfl
      | succ n =>
          cases i with
          | zero => rfl
          | succ m => simpa [markEntryConsumed] using ih m n (by omega)

lemma markEntryConsumed_source (log : List MotionEntry) (i j : ℕ) :
    ((markEntryConsumed log j).get? i).map (fun e => e.source)
      = (log.get? i).map (fun e => e.source) := by
  by_cases h : i = j
  · subst h
    rw [markEntryConsumed_get_self]
    cases hg : log.get? i with
    | none => rfl
    | some e =>
        by_cases hm : e.source = Source.manual <;> simp [hm]
  · rw [markEntryConsumed_get_other _ _ _ h]

lemma markEntryConsumed_keeps_true (log : List MotionEntry) (i j : ℕ)
    (h : (log.get? i).map (fun e => e.consumed) = some true) :
    ((markEntryConsumed log j).get? i).map (fun e => e.consumed) = some true := by
  by_cases hij : i = j
  · subst hij
    rw [markEntryConsumed_get_self]
    cases hg : log.get? i with
    | none => rw [hg] at h; exact absurd h (by simp)
    | some e =>
        rw [hg] at h
        by_cases hm : e.source = Source.manual <;> simp_all
  · rw [markEntryConsumed_get_other _ _ _ hij]
    exact h

lemma foldl_mark_keeps_true (segs : List ReturnSegment) (log : List MotionEntry) (i : ℕ)
    (h : (log.get? i).map (fun e => e.consumed) = some true) :
    ((segs.foldl (fun acc s => markEntryConsumed acc s.entry_idx) log).get? i).map
        (fun e => e.consumed) = some true := by
  induction segs generalizing log with
  | nil => exact h
  | cons t rest ih =>
      exact ih _ (markEntryConsumed_keeps_true log i t.entry_idx h)

lemma foldl_mark_consumed (segs : List ReturnSegment) (log : List MotionEntry)
    (s : ReturnSegment) (hs : s ∈ segs)
    (hsrc : (log.get? s.entry_idx).map (fun e => e.source) = some Source.manual) :
    ((segs.foldl (fun acc s => markEntryConsumed acc s.entry_idx) log).get? s.entry_idx).map
        (fun e => e.consumed) = some true := by
  induction segs generalizing log with
  | nil => cases hs
  | cons t rest ih =>
      rcases List.mem_cons.mp hs with heq | hmem
      · subst heq
        rw [List.foldl_cons]
        apply foldl_mark_keeps_true
        cases hg : log.get? s.entry_idx with
        | none => rw [hg] at hsrc; exact absurd hsrc (by simp)
        | some e =>
            rw [hg] at hsrc
            have hm : e.source = Source.manual := by simpa using hsrc
            rw [markEntryConsumed_get_self, hg]
            simp [hm]
      · rw [List.foldl_cons]
        exact ih _ hmem (by rw [markEntryConsumed_source, hsrc])

lemma collect_from_log_entry (log : List MotionEntry) (s : ReturnSegment)
    (hs : s ∈ collect_from_log log) :
    ∃ e, log.get? s.entry_idx = some e ∧ e.source = Source.manual
      ∧ e.consumed = false ∧ 0 < e.duration := by
  unfold collect_from_log at hs
  rw [List.mem_filterMap] at hs
  obtain ⟨p, hp, hf⟩ := hs
  by_cases hcond : p.2.source = Source.manual ∧ p.2.consumed = false ∧ 0 < p.2.duration
  · rw [if_pos hcond] at hf
    have hidx : s.entry_idx = p.1 := by
      cases hf
      rfl
    refine ⟨p.2, ?_, hcond.1, hcond.2.1, hcond.2.2⟩
    rw [hidx]
    exact List.mem_enum_iff_get?.mp hp
  · rw [if_neg hcond] at hf
    cases hf

/-- Claim C3: on a fully successful replay, every collected manual ledger
entry has `consumed` flipped to true; on an aborted or errored replay the
finalization leaves the log untouched, and every entry collected at begin
time still has `consumed = false`. -/
theorem replay_consumes_collected (st : LedgerState) (now : ℚ) :
    (∀ s ∈ (collect_return_segments st now).1,
      ((finishReplayLog (collect_return_segments st now).2.motion_log
          (collect_return_segments st now).1 true).get? s.entry_idx).map
          (fun e => e.consumed) = some true)
    ∧ finishReplayLog (collect_return_segments st now).2.motion_log
        (collect_return_segments st now).1 false
        = (collect_return_segments st now).2.motion_log
    ∧ (∀ s ∈ (collect_return_segments st now).1,
      ((collect_return_segments st now).2.motion_log.get? s.entry_idx).map
          (fun e => e.consumed) = some false) := by
  have hfst : (collect_return_segments st now).1
      = collect_from_log (collect_return_segments st now).2.motion_log := by
    rfl
  refine ⟨?_, by simp [finishReplayLog], ?_⟩
  · intro s hs
    rw [hfst] at hs
    obtain ⟨e, hget, hman, -, -⟩ :=
      collect_from_log_entry (collect_return_segments st now).2.motion_log s hs
    rw [finishReplayLog, if_pos rfl, hfst]
    exact foldl_mark_consumed _ _ s hs (by rw [hget]; simpa using hman)
  · intro s hs
    rw [hfst] at hs
    obtain ⟨e, hget, -, hcons, -⟩ :=
      collect_from_log_entry (collect_return_segments st now).2.motion_log s hs
    rw [hget]
    simpa using hcons

/-- Witness for C3: for the one-entry ledger `(50, 50)` held 2 s, the single
collected segment's entry is consumed after a successful replay. -/
theorem replay_consumes_collected_witness :
    (⟨0, 50, 50, 2⟩ : ReturnSegment)
        ∈ (collect_return_segments ⟨[⟨50, 50, 2, Source.manual, false⟩], none⟩ 3).1
    ∧ ((finishReplayLog
          (collect_return_segments ⟨[⟨50, 50, 2, Source.manual, false⟩], none⟩ 3).2.motion_log
          (collect_return_segments ⟨[⟨50, 50, 2, Source.manual, false⟩], none⟩ 3).1
          true).get? 0).map (fun e => e.consumed) = some true := by
  have hmem : (⟨0, 50, 50, 2⟩ : ReturnSegment)
      ∈ (collect_return_segments ⟨[⟨50, 50, 2, Source.manual, false⟩], none⟩ 3).1 := by
    norm_num [collect_return_segments, finalize_motion_log, collect_from_log,
      List.enum, List.enumFrom, List.filterMap_cons]
  exact ⟨hmem,
    (replay_consumes_collected ⟨[⟨50, 50, 2, Source.manual, false⟩], none⟩ 3).1
      ⟨0, 50, 50, 2⟩ hmem⟩

lemma record_same_single (l r : ℤ) (src : Source) (d : ℚ) (c : Bool) (t now : ℚ)
    (h : t ≤ now) :
    record_motion_command ⟨[⟨l, r, d, src, c⟩], some t⟩ l r src now
      = ⟨[⟨l, r, d + (now - t), src, c⟩], some now⟩ := by
  have hmax : max 0 (now - t) = now - t := max_eq_right (by linarith)
  simp [record_motion_command, modifyLastEntry, hmax]

lemma record_same_fold (l r : ℤ) (src : Source) (c : Bool) (ts : List ℚ) :
    ∀ (d t : ℚ), List.Chain (· ≤ ·) t ts →
      List.foldl (fun s tm => record_motion_command s l r src tm)
          ⟨[⟨l, r, d, src, c⟩], some t⟩ ts
        = ⟨[⟨l, r, d + (ts.getLastD t - t), src, c⟩], some (ts.getLastD t)⟩ := by
  induction ts with
  | nil =>
      intro d t _
      simp [List.getLastD]
  | cons t2 rest ih =>
      intro d t h
      cases h with
      | cons h1 h2 =>
          rw [List.foldl_cons, record_same_single l r src d c t t2 h1,
            ih (d + (t2 - t)) t2 h2]
          rw [List.getLastD_cons]
          congr 2
          ring_nf

lemma modifyLastEntry_getLast? (f : MotionEntry → MotionEntry) :
    ∀ log : List MotionEntry, (modifyLastEntry f log).getLast? = log.getLast?.map f
  | [] => rfl
  | [_] => rfl
  | e :: e2 :: rest => by
      have ih := modifyLastEntry_getLast? f (e2 :: rest)
      rw [show modifyLastEntry f (e :: e2 :: rest)
            = e :: modifyLastEntry f (e2 :: rest) from rfl,
        List.getLast?_cons_cons, ← ih]
      cases rest with
      | nil => rfl
      | cons e3 rest3 =>
          rw [show modifyLastEntry f (e2 :: e3 :: rest3)
                = e2 :: modifyLastEntry f (e3 :: rest3) from rfl,
            List.getLast?_cons_cons]

/-- Claim C6: issuing the same `(left, right, source)` N ≥ 1 times at
nondecreasing wall-clock times, starting from an empty ledger, yields exactly
one ledger entry whose duration is the span from the first to the last
finalization — not N entries; a differing command instead appends a fresh
entry with zero initial duration and `consumed = false` after finalizing the
previous one. -/
theorem motion_ledger_merge_law (l r : ℤ) (src : Source) (t : ℚ) (ts : List ℚ)
    (hmono : List.Chain (· ≤ ·) t ts) :
    (List.foldl (fun s tm => record_motion_command s l r src tm) ⟨[], none⟩
        (t :: ts)).motion_log
      = [⟨l, r, ts.getLastD t - t, src, false⟩]
    ∧ ∀ (st : LedgerState) (l2 r2 : ℤ) (src2 : Source) (now : ℚ) (e : MotionEntry),
        st.motion_log.getLast? = some e →
        ¬(e.left = l2 ∧ e.right = r2 ∧ e.source = src2) →
        (record_motion_command st l2 r2 src2 now).motion_log
          = (finalize_motion_log st now).motion_log ++ [⟨l2, r2, 0, src2, false⟩] := by
  constructor
  · have hfirst : record_motion_command ⟨[], none⟩ l r src t
        = ⟨[⟨l, r, 0, src, false⟩], some t⟩ := rfl
    rw [List.foldl_cons, hfirst, record_same_fold l r src false ts 0 t hmono]
    simp
  · intro st l2 r2 src2 now e hlast hne
    have hnonempty : st.motion_log.isEmpty = false := by
      cases hlog : st.motion_log with
      | nil => rw [hlog] at hlast; cases hlast
      | cons a as => rfl
    cases hlct : st.last_command_time with
    | none =>
        rw [record_motion_command, finalize_motion_log, hlct]
        simp only [hlast]
        rw [if_neg hne]
    | some tprev =>
        rw [record_motion_command, finalize_motion_log, hlct]
        simp only [hnonempty, Bool.false_eq_true, if_false,
          modifyLastEntry_getLast?, hlast, Option.map_some']
        split_ifs
        rfl

/-- Witness for C6: the command `(50, 50, manual)` issued three times, at
t = 0, 1, 3, leaves one entry of duration 3; a differing command `(-50, 50)`
then appends a fresh zero-duration entry. -/
theorem motion_ledger_merge_law_witness :
    List.Chain (· ≤ ·) (0:ℚ) [1, 3]
    ∧ (List.foldl (fun s tm => record_motion_command s 50 50 Source.manual tm)
        ⟨[], none⟩ [0, 1, 3]).motion_log
      = [⟨50, 50, ([(1:ℚ), 3].getLastD 0) - 0, Source.manual, false⟩]
    ∧ (record_motion_command ⟨[⟨50, 50, 3, Source.manual, false⟩], some 3⟩
          (-50) 50 Source.manual 4).motion_log
      = (finalize_motion_log ⟨[⟨50, 50, 3, Source.manual, false⟩], some 3⟩ 4).motion_log
          ++ [⟨-50, 50, 0, Source.manual, false⟩] := by
  have hchain : List.Chain (· ≤ ·) (0:ℚ) [1, 3] := by
    refine List.Chain.cons (by norm_num) (List.Chain.cons (by norm_num) List.Chain.nil)
  refine ⟨hchain, (motion_ledger_merge_law 50 50 Source.manual 0 [1, 3] hchain).1, ?_⟩
  exact (motion_ledger_merge_law 50 50 Source.manual 0 [1, 3] hchain).2
    ⟨[⟨50, 50, 3, Source.manual, false⟩], some 3⟩ (-50) 50 Source.manual 4
    ⟨50, 50, 3, Source.manual, false⟩ rfl (by simp)

/-- The state after the example scenario's manual commands: `(50, 50)` issued
at t = 0 and held 2 s, then `(-50, 50)` issued at t = 2 and held 1 s. -/
def exampleAfterCommands : HWState :=
  set_motor_speed (set_motor_speed (initialHWState 100 600) 50 50 Source.manual 0)
    (-50) 50 Source.manual 2

/-- Claim C2: the replay iterates the collected segments in reverse
chronological order, issuing `(-left, -right)` with source auto for each
segment of positive duration and non-zero velocity, and always issues
`(0, 0)` after the loop, whether it completed or was aborted; in the example
scenario (commands `(50,50)` for 2 s then `(-50,50)` for 1 s) the accepted
replay issues `(50,-50)` for 1 s, then `(-50,-50)` for 2 s, then `(0,0)`. -/
theorem replay_reverse_inverted (segments : List ReturnSegment) (ab : Option ℕ) :
    ((runReplay segments ab).1).getLast? = some stopCommand
    ∧ (runReplay segments none).1
        = (segments.reverse.filter shouldDrive).map invertSegment ++ [stopCommand]
    ∧ (runReplay segments none).2 = true
    ∧ (begin_return_to_start exampleAfterCommands 3).1 = (true, "Returning to start")
    ∧ (begin_return_to_start exampleAfterCommands 3).2.1
        = [⟨0, 50, 50, 2⟩, ⟨1, -50, 50, 1⟩]
    ∧ (runReplay [⟨0, 50, 50, 2⟩, ⟨1, -50, 50, 1⟩] none).1
        = [⟨50, -50, 1, Source.auto⟩, ⟨-50, -50, 2, Source.auto⟩, stopCommand] := by
  have hbegin : (begin_return_to_start exampleAfterCommands 3).1
        = (true, "Returning to start")
      ∧ (begin_return_to_start exampleAfterCommands 3).2.1
        = [⟨0, 50, 50, 2⟩, ⟨1, -50, 50, 1⟩] := by
    have hledger : exampleAfterCommands.ledger
        = ⟨[⟨50, 50, 2, Source.manual, false⟩, ⟨-50, 50, 0, Source.manual, false⟩],
           some 2⟩ := by
      norm_num [exampleAfterCommands, set_motor_speed, initialHWState, clampValue,
        abort_return_to_start, record_motion_command, modifyLastEntry]
    have hrun : exampleAfterCommands.returning_to_start = false := by
      norm_num [exampleAfterCommands, set_motor_speed, initialHWState, clampValue,
        abort_return_to_start, record_motion_command, modifyLastEntry]
    have hcollect : collect_return_segments exampleAfterCommands.ledger 3
        = ([⟨0, 50, 50, 2⟩, ⟨1, -50, 50, 1⟩],
           ⟨[⟨50, 50, 2, Source.manual, false⟩, ⟨-50, 50, 1, Source.manual, false⟩],
            some 3⟩) := by
      rw [hledger]
      norm_num [collect_return_segments, finalize_motion_log, collect_from_log,
        modifyLastEntry, List.enum, List.enumFrom, List.filterMap_cons]
    constructor <;>
      simp [begin_return_to_start, hrun, hcollect]
  refine ⟨?_, ?_, ?_, hbegin.1, hbegin.2, ?_⟩
  · rw [runReplay]
    exact List.getLast?_concat _
  · rw [runReplay, workerLoop_none_eq_filter]
  · rw [runReplay, workerLoop_none_eq_filter]
  · rw [runReplay, workerLoop_none_eq_filter]
    norm_num [shouldDrive, List.filter, invertSegment, stopCommand]

/-- Claim C4 (amended): the heading wrap applied by every `update_odometry`
integration step maps every real angle into the half-open interval
`[-π, π)`: the stored heading is at least `-π` (attained, see the
counterexample) and strictly below `π`. -/
theorem integrate_heading_range (theta delta_theta : ℝ) :
    -Real.pi ≤ integrateHeading theta delta_theta
    ∧ integrateHeading theta delta_theta < Real.pi := by
  have h2pi : (0:ℝ) < 2 * Real.pi := by positivity
  obtain ⟨h1, h2⟩ := pyMod_nonneg_lt (theta + delta_theta + Real.pi) (2 * Real.pi) h2pi
  unfold integrateHeading wrapHeading
  constructor <;> linarith

